import Mathlib

/-!
Shallow embedding of `src/brokenlinkchecker-dashboard.py` (a Streamlit
broken-link-checker dashboard) and proofs about its crawl engine.

The network and the two urllib library functions are abstracted into a
`Web` structure:
  * `fetch url`  models `requests.get(url, timeout=10)` followed by
    `raise_for_status()` and `BeautifulSoup(page.text, "html.parser")`:
    `none` means the GET raised (or a non-success status made
    `raise_for_status` raise); `some soup` is the parsed document.
  * `check url`  models `requests.head(url, allow_redirects=True, timeout=5)`:
    `none` means the request raised; `some code` is `response.status_code`.
  * `netloc url` models `urlparse(url).netloc`.
  * `urljoin base link` models `urllib.parse.urljoin(base, link)`.

A parsed document (a BeautifulSoup `soup`) is a list of elements, each a
tag name with an attribute list; `soup.find_all(tag)` filters by tag and
`element.get(attr)` looks an attribute up.

Python exceptions are modelled by `Option`; every Python `set` is
modelled as a duplicate-free list in insertion order (the source only
uses membership, `add`, and iteration).
-/

/-- One element of a parsed page: a tag name with its attributes,
e.g. `<a href="...">` is `⟨"a", [("href", "...")]⟩`. -/
structure Element where
  tag : String
  attrs : List (String × String)
deriving DecidableEq, Repr

/-- Models `element.get(attr)`: the attribute's value, or `None` when absent. -/
def Element.get (e : Element) (attr : String) : Option String :=
  (e.attrs.find? (fun p => p.1 == attr)).map (fun p => p.2)

/-- A parsed page, the result of `BeautifulSoup(page.text, "html.parser")`. -/
abbrev Soup := List Element

/-- Models `soup.find_all(tag)`. -/
def Soup.find_all (soup : Soup) (tag : String) : List Element :=
  soup.filter (fun e => e.tag == tag)

/-- The abstracted network plus the two urllib helpers used by the script. -/
structure Web where
  fetch : String → Option Soup
  check : String → Option Nat
  netloc : String → String
  urljoin : String → String → String

/-- One checked link's outcome `(url, status_code or None, reachable,
note)` — exactly the tuples the script appends to `results`. -/
abbrev LinkRecord := String × Option Nat × Bool × String

/-- Models `is_internal(url, base_netloc)`:
`parsed.netloc == '' or parsed.netloc == base_netloc`. -/
def is_internal (w : Web) (url base_netloc : String) : Bool :=
  w.netloc url == "" || w.netloc url == base_netloc

/-- Models `check_link(url)`: on a response, the pair
`(status_code, status_code < 400)`; when `requests.head` raises, `(None, False)`. -/
def check_link (w : Web) (url : String) : Option Nat × Bool :=
  match w.check url with
  | some status_code => (status_code, decide (status_code < 400))
  | none => (none, false)

/-- Models `links.add(full_url)` on the Python set, as insert-if-absent
on a duplicate-free list. -/
def setAdd (links : List String) (full_url : String) : List String :=
  if full_url ∈ links then links else links ++ [full_url]

/-- The `tags_attrs` table of `extract_links`. -/
def tags_attrs : List (String × String) :=
  [("a", "href"), ("img", "src"), ("script", "src"), ("link", "href")]

/-- The inner loop of `extract_links`: for each element of one
`find_all(tag)` result, read the attribute, skip falsy (absent or empty)
values, join with the base URL and add to the set. -/
def addLinks (w : Web) (base_url : String) (attr : String)
    (elements : List Element) (links : List String) : List String :=
  elements.foldl (fun links element =>
    match element.get attr with
    | some link => if link ≠ "" then setAdd links (w.urljoin base_url link) else links
    | none => links) links

/-- Models `extract_links(soup, base_url)`. -/
def extract_links (w : Web) (soup : Soup) (base_url : String) : List String :=
  tags_attrs.foldl (fun links ta => addLinks w base_url ta.2 (soup.find_all ta.1) links) []

/-- The mutable state threaded through `crawl`: the `visited` set, the
`results` list, and a ghost log `fetched` of every URL for which
`requests.get` was issued (one entry appended per page fetch). -/
structure CrawlState where
  visited : List String
  results : List LinkRecord
  fetched : List String
deriving DecidableEq, Repr

/-- The `for link in links` loop body of `crawl`, with the recursive call
abstracted as `goFn` (applied when `is_internal(link, base_netloc)`):
skip links already in `visited`; otherwise check the link, append its
record, and recurse when internal. -/
def crawlLinks (w : Web) (base_netloc : String)
    (goFn : String → CrawlState → CrawlState)
    (links : List String) (st : CrawlState) : CrawlState :=
  match links with
  | [] => st
  | link :: rest =>
    let st' :=
      if link ∈ st.visited then st
      else
        let r := check_link w link
        let st2 : CrawlState := ⟨st.visited, st.results ++ [(link, r.1, r.2, "")], st.fetched⟩
        if is_internal w link base_netloc then goFn link st2 else st2
    crawlLinks w base_netloc goFn rest st'

/-- The body of `crawl`, recursing on `gas = max_depth + 1 - depth`
(in Nat, `gas = 0` iff `depth > max_depth`, and the recursive call at
`depth + 1` has gas `gas - 1`).  `gas = 0`: the `depth > max_depth`
guard returns.  Otherwise: if `url in visited` return; add `url` to
`visited`; `requests.get` (logged in `fetched`); on exception append the
`(url, None, False, "PAGE ERROR")` record and return; on success extract
the page's links and run the link loop. -/
def crawlGo (w : Web) (base_netloc : String) : Nat → String → CrawlState → CrawlState
  | 0, _, st => st
  | gas + 1, url, st =>
    if url ∈ st.visited then st
    else
      let st1 : CrawlState := ⟨url :: st.visited, st.results, st.fetched ++ [url]⟩
      match w.fetch url with
      | none => ⟨st1.visited, st1.results ++ [(url, none, false, "PAGE ERROR")], st1.fetched⟩
      | some soup =>
          crawlLinks w base_netloc (crawlGo w base_netloc gas) (extract_links w soup url) st1

/-- Models `crawl(url, base_netloc, visited, results, depth, max_depth)`
(the UI arguments `progress_bar`, `progress_state`, `live_log` only
render output and are dropped).  The recursion depth budget
`max_depth + 1 - depth` drives `crawlGo`; the `depth > max_depth` guard
of the source is exactly `max_depth + 1 - depth = 0`. -/
def crawl (w : Web) (url base_netloc : String) (st : CrawlState)
    (depth max_depth : Nat) : CrawlState :=
  crawlGo w base_netloc (max_depth + 1 - depth) url st

/-- The module-level dedup loop: `unique_results[url] = (status_code, ok, note)`,
iterating `results` in order.  A Python dict keeps first-insertion order
of keys and overwrites values in place. -/
def dictInsert (m : List (String × (Option Nat × Bool × String)))
    (k : String) (v : Option Nat × Bool × String) :
    List (String × (Option Nat × Bool × String)) :=
  if m.any (fun p => p.1 == k) then m.map (fun p => if p.1 == k then (k, v) else p)
  else m ++ [(k, v)]

/-- Models `unique_results` after the loop
`for url, status_code, ok, note in results`. -/
def unique_results (results : List LinkRecord) : List (String × (Option Nat × Bool × String)) :=
  results.foldl (fun m r => dictInsert m r.1 r.2) []

/-- Models `results = [(url, *unique_results[url]) for url in unique_results]`. -/
def dedup_results (results : List LinkRecord) : List LinkRecord :=
  (unique_results results).map (fun p => (p.1, p.2))

/-- Models `total = len(results)` (after dedup). -/
def totalCount (results : List LinkRecord) : Nat :=
  (dedup_results results).length

/-- Models `broken = sum(1 for _, _, ok, _ in results if not ok)` (after dedup). -/
def brokenCount (results : List LinkRecord) : Nat :=
  ((dedup_results results).filter (fun r => !r.2.2.1)).length

/-- Models `working = total - broken`. -/
def workingCount (results : List LinkRecord) : Nat :=
  totalCount results - brokenCount results

/-- The records the link loop appends when no recursion happens (the
`depth == max_depth` situation, where every inner `crawl` call is a
no-op): each link not in `visited` is checked and recorded, in order. -/
def checkOnly (w : Web) (links : List String) (visited : List String) : List LinkRecord :=
  match links with
  | [] => []
  | link :: rest =>
    if link ∈ visited then checkOnly w rest visited
    else (link, (check_link w link).1, (check_link w link).2, "") :: checkOnly w rest visited

/-- Spec-side description of the dedup ordering: the distinct URLs of the
raw result list, in order of first occurrence. -/
def firstKeys (results : List LinkRecord) : List String :=
  results.foldl (fun acc r => if r.1 ∈ acc then acc else acc ++ [r.1]) []

/-- Spec-side description of last-occurrence-wins: the outcome carried by
the last record of the raw list whose URL is `k` (if any). -/
def lastOutcome (results : List LinkRecord) (k : String) : Option (Option Nat × Bool × String) :=
  ((results.filter (fun r => r.1 == k)).getLast?).map (fun r => r.2)

/-- A page whose only content is one `<a href="u">` hyperlink. -/
def aHref (u : String) : Element := ⟨"a", [("href", u)]⟩

/-- A two-page cyclic site: page `"a"` links to page `"b"` and back, both
on host `"h"`; every other URL fails to fetch; every HEAD check answers
200; links are already absolute. -/
def cycWeb : Web where
  fetch := fun u =>
    if u = "a" then some [aHref "b"]
    else if u = "b" then some [aHref "a"]
    else none
  check := fun _ => some 200
  netloc := fun _ => "h"
  urljoin := fun _ l => l

/-- A site where the external URL `"x"` is referenced from two distinct
pages: the seed `"s"` links to `"x"` and to the internal page `"b"`, and
`"b"` links to `"x"` again; the HEAD check of `"x"` raises. -/
def dupWeb : Web where
  fetch := fun u =>
    if u = "s" then some [aHref "x", aHref "b"]
    else if u = "b" then some [aHref "x"]
    else none
  check := fun u => if u = "x" then none else some 200
  netloc := fun u => if u = "s" ∨ u = "b" then "h" else "e"
  urljoin := fun _ l => l

section CrawlLemmas

variable (w : Web) (bn : String)

lemma crawlGo_zero (url : String) (st : CrawlState) : crawlGo w bn 0 url st = st := rfl

lemma crawlGo_succ (gas : Nat) (url : String) (st : CrawlState) :
    crawlGo w bn (gas + 1) url st =
      if url ∈ st.visited then st
      else
        match w.fetch url with
        | none => ⟨url :: st.visited, st.results ++ [(url, none, false, "PAGE ERROR")],
            st.fetched ++ [url]⟩
        | some soup =>
            crawlLinks w bn (crawlGo w bn gas) (extract_links w soup url)
              ⟨url :: st.visited, st.results, st.fetched ++ [url]⟩ := rfl

lemma crawlLinks_nil (goFn : String → CrawlState → CrawlState) (st : CrawlState) :
    crawlLinks w bn goFn [] st = st := rfl

lemma crawlLinks_cons (goFn : String → CrawlState → CrawlState)
    (link : String) (rest : List String) (st : CrawlState) :
    crawlLinks w bn goFn (link :: rest) st =
      crawlLinks w bn goFn rest
        (if link ∈ st.visited then st
         else
           let r := check_link w link
           let st2 : CrawlState := ⟨st.visited, st.results ++ [(link, r.1, r.2, "")], st.fetched⟩
           if is_internal w link bn then goFn link st2 else st2) := rfl

/-- The link loop never removes anything from `visited`, provided the
recursive call does not. -/
lemma crawlLinks_visited_mono (goFn : String → CrawlState → CrawlState)
    (hgo : ∀ url st, st.visited ⊆ (goFn url st).visited) :
    ∀ (links : List String) (st : CrawlState),
      st.visited ⊆ (crawlLinks w bn goFn links st).visited := by
  intro links
  induction links with
  | nil => intro st; rw [crawlLinks_nil]; exact List.Subset.refl _
  | cons link rest ih =>
    intro st
    rw [crawlLinks_cons]
    refine List.Subset.trans ?_ (ih _)
    by_cases h : link ∈ st.visited
    · simp [h]
    · simp only [h, if_neg, if_false]
      by_cases hint : is_internal w link bn
      · simp only [hint, if_true]
        exact hgo link ⟨st.visited,
          st.results ++ [(link, (check_link w link).1, (check_link w link).2, "")], st.fetched⟩
      · simp [hint]

/-- `crawlGo` never removes anything from `visited`. -/
lemma crawlGo_visited_mono :
    ∀ (gas : Nat) (url : String) (st : CrawlState),
      st.visited ⊆ (crawlGo w bn gas url st).visited := by
  intro gas
  induction gas with
  | zero => intro url st; rw [crawlGo_zero]; exact List.Subset.refl _
  | succ gas ih =>
    intro url st
    rw [crawlGo_succ]
    by_cases h : url ∈ st.visited
    · simp [h]
    · simp only [h, if_neg, if_false]
      cases hf : w.fetch url with
      | none => intro x hx; simp [List.mem_cons.2 (Or.inr hx)]
      | some soup =>
        intro x hx
        exact crawlLinks_visited_mono w bn _ ih _ _ (List.mem_cons.2 (Or.inr hx))

/-- If the recursive call leaves the seed-filtered results unchanged
whenever the seed is visited, so does the whole link loop. -/
lemma crawlLinks_filter_seed (goFn : String → CrawlState → CrawlState) (seed : String)
    (hmono : ∀ url st, st.visited ⊆ (goFn url st).visited)
    (hgo : ∀ url st, seed ∈ st.visited →
      (goFn url st).results.filter (fun r => r.1 == seed) =
        st.results.filter (fun r => r.1 == seed)) :
    ∀ (links : List String) (st : CrawlState), seed ∈ st.visited →
      (crawlLinks w bn goFn links st).results.filter (fun r => r.1 == seed) =
        st.results.filter (fun r => r.1 == seed) := by
  intro links
  induction links with
  | nil => intro st hseed; rw [crawlLinks_nil]
  | cons link rest ih =>
    intro st hseed
    rw [crawlLinks_cons]
    by_cases h : link ∈ st.visited
    · simp only [h, if_true]
      exact ih st hseed
    · simp only [h, if_neg, if_false]
      have hne : (link == seed) = false := by
        simp only [beq_eq_false_iff_ne]
        intro e; exact h (e ▸ hseed)
      set st2 : CrawlState :=
        ⟨st.visited, st.results ++ [(link, (check_link w link).1, (check_link w link).2, "")],
          st.fetched⟩ with hst2
      have hres2 : st2.results.filter (fun r => r.1 == seed) =
          st.results.filter (fun r => r.1 == seed) := by
        simp [hst2, List.filter_append, hne]
      by_cases hint : is_internal w link bn
      · rw [if_pos hint]
        rw [ih (goFn link st2) (hmono link st2 hseed)]
        rw [hgo link st2 hseed, hres2]
      · rw [if_neg hint]
        rw [ih st2 hseed, hres2]

/-- Whenever the seed is already visited, `crawlGo` appends no record
whose URL is the seed. -/
lemma crawlGo_filter_seed (seed : String) :
    ∀ (gas : Nat) (url : String) (st : CrawlState), seed ∈ st.visited →
      (crawlGo w bn gas url st).results.filter (fun r => r.1 == seed) =
        st.results.filter (fun r => r.1 == seed) := by
  intro gas
  induction gas with
  | zero => intro url st hseed; rw [crawlGo_zero]
  | succ gas ih =>
    intro url st hseed
    rw [crawlGo_succ]
    by_cases h : url ∈ st.visited
    · simp [h]
    · simp only [h, if_neg, if_false]
      have hne : (url == seed) = false := by
        simp only [beq_eq_false_iff_ne]
        intro e; exact h (e ▸ hseed)
      cases hf : w.fetch url with
      | none => simp [List.filter_append, hne]
      | some soup =>
        rw [crawlLinks_filter_seed w bn _ seed (crawlGo_visited_mono w bn gas) (ih)]
        exact List.mem_cons.2 (Or.inr hseed)

/-- The link loop preserves the invariant «`fetched` is duplicate-free
and contained in `visited`», provided the recursive call does. -/
lemma crawlLinks_fetch_inv (goFn : String → CrawlState → CrawlState)
    (hgo : ∀ url st, st.fetched.Nodup ∧ st.fetched ⊆ st.visited →
      (goFn url st).fetched.Nodup ∧ (goFn url st).fetched ⊆ (goFn url st).visited) :
    ∀ (links : List String) (st : CrawlState),
      st.fetched.Nodup ∧ st.fetched ⊆ st.visited →
      (crawlLinks w bn goFn links st).fetched.Nodup ∧
        (crawlLinks w bn goFn links st).fetched ⊆ (crawlLinks w bn goFn links st).visited := by
  intro links
  induction links with
  | nil => intro st hinv; rw [crawlLinks_nil]; exact hinv
  | cons link rest ih =>
    intro st hinv
    rw [crawlLinks_cons]
    refine ih _ ?_
    by_cases h : link ∈ st.visited
    · simpa [h] using hinv
    · simp only [h, if_neg, if_false]
      by_cases hint : is_internal w link bn
      · simp only [hint, if_true]
        exact hgo link _ hinv
      · simpa [hint] using hinv

/-- `crawlGo` preserves the invariant «`fetched` is duplicate-free and
contained in `visited`». -/
lemma crawlGo_fetch_inv :
    ∀ (gas : Nat) (url : String) (st : CrawlState),
      st.fetched.Nodup ∧ st.fetched ⊆ st.visited →
      (crawlGo w bn gas url st).fetched.Nodup ∧
        (crawlGo w bn gas url st).fetched ⊆ (crawlGo w bn gas url st).visited := by
  intro gas
  induction gas with
  | zero => intro url st hinv; rw [crawlGo_zero]; exact hinv
  | succ gas ih =>
    intro url st hinv
    rw [crawlGo_succ]
    by_cases h : url ∈ st.visited
    · simpa [h] using hinv
    · simp only [h, if_neg, if_false]
      have hnf : url ∉ st.fetched := fun hmem => h (hinv.2 hmem)
      have hinv1 : (st.fetched ++ [url]).Nodup ∧ st.fetched ++ [url] ⊆ url :: st.visited := by
        constructor
        · simp [List.nodup_append, hinv.1, hnf]
        · intro x hx
          rcases List.mem_append.1 hx with hx | hx
          · exact List.mem_cons.2 (Or.inr (hinv.2 hx))
          · simp at hx; simp [hx]
      cases hf : w.fetch url with
      | none => exact hinv1
      | some soup => exact crawlLinks_fetch_inv w bn _ ih _ _ hinv1

/-- Every page the link loop fetches is already logged, or is internal,
provided every page the recursive call fetches is already logged, is the
call's own argument, or is internal — the loop only recurses on links
that pass `is_internal`. -/
lemma crawlLinks_fetched_internal (goFn : String → CrawlState → CrawlState)
    (hgo : ∀ url st p, p ∈ (goFn url st).fetched →
      p ∈ st.fetched ∨ p = url ∨ is_internal w p bn = true) :
    ∀ (links : List String) (st : CrawlState) (p : String),
      p ∈ (crawlLinks w bn goFn links st).fetched →
      p ∈ st.fetched ∨ is_internal w p bn = true := by
  intro links
  induction links with
  | nil => intro st p hp; rw [crawlLinks_nil] at hp; exact Or.inl hp
  | cons link rest ih =>
    intro st p hp
    rw [crawlLinks_cons] at hp
    rcases ih _ p hp with h | h
    · by_cases hv : link ∈ st.visited
      · simp only [hv, if_true] at h
        exact Or.inl h
      · simp only [hv, if_neg, if_false] at h
        by_cases hint : is_internal w link bn
        · rw [if_pos hint] at h
          rcases hgo link _ p h with h' | h' | h'
          · exact Or.inl h'
          · exact Or.inr (h' ▸ hint)
          · exact Or.inr h'
        · simp only [hint, if_false] at h
          exact Or.inl h
    · exact Or.inr h

/-- Every page `crawlGo` fetches is already logged, is the call's own
URL, or is internal. -/
lemma crawlGo_fetched_internal :
    ∀ (gas : Nat) (url : String) (st : CrawlState) (p : String),
      p ∈ (crawlGo w bn gas url st).fetched →
      p ∈ st.fetched ∨ p = url ∨ is_internal w p bn = true := by
  intro gas
  induction gas with
  | zero => intro url st p hp; rw [crawlGo_zero] at hp; exact Or.inl hp
  | succ gas ih =>
    intro url st p hp
    rw [crawlGo_succ] at hp
    by_cases h : url ∈ st.visited
    · simp only [h, if_true] at hp
      exact Or.inl hp
    · simp only [h, if_neg, if_false] at hp
      cases hf : w.fetch url with
      | none =>
        rw [hf] at hp
        rcases List.mem_append.1 hp with hp | hp
        · exact Or.inl hp
        · simp at hp; exact Or.inr (Or.inl hp)
      | some soup =>
        rw [hf] at hp
        rcases crawlLinks_fetched_internal w bn _ ih _ _ p hp with hp' | hp'
        · rcases List.mem_append.1 hp' with hp'' | hp''
          · exact Or.inl hp''
          · simp at hp''; exact Or.inr (Or.inl hp'')
        · exact Or.inr (Or.inr hp')

/-- When the recursive call is a no-op (as at `depth == max_depth`), the
link loop only checks: it appends exactly the `checkOnly` records and
leaves `visited` and `fetched` unchanged. -/
lemma crawlLinks_no_recursion (goFn : String → CrawlState → CrawlState)
    (hgo : ∀ url st, goFn url st = st) :
    ∀ (links : List String) (st : CrawlState),
      crawlLinks w bn goFn links st =
        ⟨st.visited, st.results ++ checkOnly w links st.visited, st.fetched⟩ := by
  intro links
  induction links with
  | nil => intro st; rw [crawlLinks_nil, checkOnly]; simp
  | cons link rest ih =>
    intro st
    rw [crawlLinks_cons, checkOnly]
    by_cases h : link ∈ st.visited
    · simp only [h, if_true]
      exact ih st
    · simp only [h, if_neg, if_false]
      by_cases hint : is_internal w link bn
      · simp only [hint, if_true, hgo]
        rw [ih]
        simp
      · simp only [hint, if_false]
        rw [ih]
        simp

end CrawlLemmas

/-- C1: `check_link` returns `(status_code, true)` iff a response was
received (`w.check url = some code`) and its status code is below 400;
when the HEAD request raises (`w.check url = none`) it returns
`(none, false)`.  The exception is absorbed inside `check_link` (the
`try/except` of the source is total in the model), so the caller's
traversal is never aborted. -/
theorem check_link_spec :
    ∀ (w : Web) (url : String),
      (check_link w url).1 = w.check url
      ∧ ((check_link w url).2 = true ↔ ∃ code, w.check url = some code ∧ code < 400)
      ∧ (w.check url = none → check_link w url = (none, false)) := by
  intro w url
  cases h : w.check url with
  | none => simp [check_link, h]
  | some code => simp [check_link, h]

/-- Witness for C1 at the concrete site `dupWeb`, whose HEAD check of
`"x"` raises: `check_link` yields `(none, false)`. -/
theorem check_link_spec_witness : check_link dupWeb "x" = (none, false) :=
  (check_link_spec dupWeb "x").2.2 rfl

/-- C2: when the page fetch of `url` fails, `crawl` appends exactly the
record `(url, none, false, "PAGE ERROR")`, marks `url` visited and
logged as fetched, and does nothing else (no link extraction, no
recursion); a seed whose fetch fails yields exactly that one record. -/
theorem crawl_page_error :
    (∀ (w : Web) (url bn : String) (st : CrawlState) (depth max_depth : Nat),
      depth ≤ max_depth → url ∉ st.visited → w.fetch url = none →
      crawl w url bn st depth max_depth =
        ⟨url :: st.visited, st.results ++ [(url, none, false, "PAGE ERROR")],
          st.fetched ++ [url]⟩)
    ∧ (∀ (w : Web) (url bn : String) (max_depth : Nat),
      w.fetch url = none →
      (crawl w url bn ⟨[], [], []⟩ 0 max_depth).results = [(url, none, false, "PAGE ERROR")]) := by
  have h1 : ∀ (w : Web) (url bn : String) (st : CrawlState) (depth max_depth : Nat),
      depth ≤ max_depth → url ∉ st.visited → w.fetch url = none →
      crawl w url bn st depth max_depth =
        ⟨url :: st.visited, st.results ++ [(url, none, false, "PAGE ERROR")],
          st.fetched ++ [url]⟩ := by
    intro w url bn st depth maxd hd hnv hf
    obtain ⟨gas, hg⟩ : ∃ g, maxd + 1 - depth = g + 1 := ⟨maxd - depth, by omega⟩
    rw [crawl, hg, crawlGo_succ, if_neg hnv, hf]
  refine ⟨h1, ?_⟩
  intro w url bn maxd hf
  rw [h1 w url bn ⟨[], [], []⟩ 0 maxd (Nat.zero_le _) (by simp) hf]
  rfl

/-- Witness for C2: on `cycWeb` the URL `"z"` fails to fetch. -/
theorem crawl_page_error_witness :
    crawl cycWeb "z" "h" ⟨[], [], []⟩ 0 3 =
      ⟨["z"], [("z", none, false, "PAGE ERROR")], ["z"]⟩
    ∧ (crawl cycWeb "z" "h" ⟨[], [], []⟩ 0 3).results = [("z", none, false, "PAGE ERROR")] :=
  ⟨crawl_page_error.1 cycWeb "z" "h" ⟨[], [], []⟩ 0 3 (by omega) (by simp) rfl,
   crawl_page_error.2 cycWeb "z" "h" 3 rfl⟩

/-- C3: `crawl` returns immediately, with the state untouched and no
fetch logged, when `depth > max_depth` or the URL is already visited;
and the depth bound is inclusive: at `depth = max_depth` the page is
still fetched and all its not-yet-visited links checked and recorded,
while every recursive call (at `depth + 1`) is a no-op, so `visited`
and `fetched` gain only the page itself. -/
theorem crawl_guard_and_inclusive_depth :
    (∀ (w : Web) (url bn : String) (st : CrawlState) (depth max_depth : Nat),
      depth > max_depth ∨ url ∈ st.visited → crawl w url bn st depth max_depth = st)
    ∧ (∀ (w : Web) (url bn : String) (st : CrawlState) (max_depth : Nat) (soup : Soup),
      url ∉ st.visited → w.fetch url = some soup →
      crawl w url bn st max_depth max_depth =
        ⟨url :: st.visited,
          st.results ++ checkOnly w (extract_links w soup url) (url :: st.visited),
          st.fetched ++ [url]⟩) := by
  constructor
  · intro w url bn st depth maxd h
    rcases h with h | h
    · have hz : maxd + 1 - depth = 0 := by omega
      rw [crawl, hz, crawlGo_zero]
    · rw [crawl]
      cases hg : maxd + 1 - depth with
      | zero => rw [crawlGo_zero]
      | succ gas => rw [crawlGo_succ, if_pos h]
  · intro w url bn st maxd soup hnv hf
    have hg : maxd + 1 - maxd = 0 + 1 := by omega
    rw [crawl, hg, crawlGo_succ, if_neg hnv, hf]
    exact crawlLinks_no_recursion w bn (crawlGo w bn 0) (fun u s => rfl)
      (extract_links w soup url) ⟨url :: st.visited, st.results, st.fetched ++ [url]⟩

/-- Witness for C3: a visited URL is a no-op, and at
`depth = max_depth = 2` page `"a"` of `cycWeb` is fetched and its link
`"b"` checked but not recursed into. -/
theorem crawl_guard_and_inclusive_depth_witness :
    crawl cycWeb "a" "h" ⟨["a"], [], []⟩ 0 3 = ⟨["a"], [], []⟩
    ∧ crawl cycWeb "a" "h" ⟨[], [], []⟩ 2 2 =
        ⟨["a"], [("b", some 200, true, "")], ["a"]⟩ :=
  ⟨crawl_guard_and_inclusive_depth.1 cycWeb "a" "h" ⟨["a"], [], []⟩ 0 3 (Or.inr (by simp)),
   crawl_guard_and_inclusive_depth.2 cycWeb "a" "h" ⟨[], [], []⟩ 2 [aHref "b"] (by simp) rfl⟩

/-- C4: `is_internal` holds iff the URL's host component is empty or
exactly equals the origin host; and in a crawl run from an empty state
every URL fetched as a page is the seed itself or internal — external
links are never fetched as pages. -/
theorem is_internal_gates_recursion :
    (∀ (w : Web) (url bn : String),
      is_internal w url bn = true ↔ (w.netloc url = "" ∨ w.netloc url = bn))
    ∧ (∀ (w : Web) (seed bn : String) (max_depth : Nat) (p : String),
      p ∈ (crawl w seed bn ⟨[], [], []⟩ 0 max_depth).fetched →
      p = seed ∨ is_internal w p bn = true) := by
  constructor
  · intro w url bn
    simp [is_internal]
  · intro w seed bn maxd p hp
    rw [crawl] at hp
    rcases crawlGo_fetched_internal w bn (maxd + 1 - 0) seed ⟨[], [], []⟩ p hp with h | h | h
    · simp at h
    · exact Or.inl h
    · exact Or.inr h

/-- Witness for C4: on `dupWeb`, the internal page `"b"` is fetched
during the crawl from seed `"s"`, and is indeed seed-or-internal. -/
theorem is_internal_gates_recursion_witness :
    "b" = "s" ∨ is_internal dupWeb "b" "h" = true :=
  is_internal_gates_recursion.2 dupWeb "s" "h" 1 "b" (by decide)

/-- C6: a crawl from an empty state fetches each page URL at most once
(the `fetched` log is duplicate-free), and on the concrete cyclic site
`cycWeb` (`"a"` links to `"b"` and back) the crawl terminates with each
of the two pages fetched exactly once.  Termination in general is
definitional: `crawl` is a total function of the model. -/
theorem crawl_fetches_each_page_at_most_once :
    (∀ (w : Web) (seed bn : String) (max_depth : Nat),
      ((crawl w seed bn ⟨[], [], []⟩ 0 max_depth).fetched).Nodup)
    ∧ (crawl cycWeb "a" "h" ⟨[], [], []⟩ 0 3).fetched = ["a", "b"] := by
  constructor
  · intro w seed bn maxd
    exact (crawlGo_fetch_inv w bn (maxd + 1 - 0) seed ⟨[], [], []⟩ (by simp)).1
  · rfl

/-- C7: a crawl with `max_depth = 0` fetches only the seed page; every
link extracted from it that is not already visited is checked and
recorded, and no recursion happens (`visited` and `fetched` end as just
the seed). -/
theorem crawl_depth_zero :
    ∀ (w : Web) (seed bn : String) (soup : Soup),
      w.fetch seed = some soup →
      crawl w seed bn ⟨[], [], []⟩ 0 0 =
        ⟨[seed], checkOnly w (extract_links w soup seed) [seed], [seed]⟩ := by
  intro w seed bn soup hf
  show crawlGo w bn (0 + 1) seed ⟨[], [], []⟩ = _
  rw [crawlGo_succ, if_neg (by simp), hf]
  exact crawlLinks_no_recursion w bn (crawlGo w bn 0) (fun u s => rfl)
    (extract_links w soup seed) ⟨[seed], [], [] ++ [seed]⟩

/-- Witness for C7 on `cycWeb`: only page `"a"` is fetched, its link
`"b"` is checked but not recursed into. -/
theorem crawl_depth_zero_witness :
    crawl cycWeb "a" "h" ⟨[], [], []⟩ 0 0 =
      ⟨["a"], [("b", some 200, true, "")], ["a"]⟩ :=
  crawl_depth_zero cycWeb "a" "h" [aHref "b"] rfl

/-- C9: check deduplication is not global — on `dupWeb` the external URL
`"x"` is referenced from the two distinct pages `"s"` and `"b"` and is
never marked visited (only page-fetch targets are), so the raw result
list records it twice. -/
theorem duplicate_checks_in_raw_results :
    (crawl dupWeb "s" "h" ⟨[], [], []⟩ 0 1).results =
      [("x", none, false, ""), ("b", some 200, true, ""), ("x", none, false, "")]
    ∧ ((crawl dupWeb "s" "h" ⟨[], [], []⟩ 0 1).results.filter
        (fun r => r.1 == "x")).length = 2 := by
  constructor
  · rfl
  · rfl

/-- C10: when the seed page's fetch succeeds, no record whose URL equals
the seed ever appears in the results: the seed enters `visited` before
any link processing and `visited` never shrinks, so seed-links are
skipped and recursive calls on the seed are no-ops. -/
theorem seed_never_recorded_on_success :
    ∀ (w : Web) (seed bn : String) (max_depth : Nat) (soup : Soup),
      w.fetch seed = some soup →
      ((crawl w seed bn ⟨[], [], []⟩ 0 max_depth).results).filter (fun r => r.1 == seed) = [] := by
  intro w seed bn maxd soup hf
  rw [crawl]
  simp only [Nat.sub_zero]
  rw [crawlGo_succ, if_neg (by simp), hf]
  exact (crawlLinks_filter_seed w bn (crawlGo w bn maxd) seed
    (crawlGo_visited_mono w bn maxd) (crawlGo_filter_seed w bn seed maxd)
    (extract_links w soup seed) ⟨[seed], [], [seed]⟩ (by simp)).trans rfl

/-- Witness for C10 on `cycWeb`: the cyclic site references the seed
`"a"` from page `"b"`, yet no record for `"a"` appears. -/
theorem seed_never_recorded_on_success_witness :
    ((crawl cycWeb "a" "h" ⟨[], [], []⟩ 0 3).results).filter (fun r => r.1 == "a") = [] :=
  seed_never_recorded_on_success cycWeb "a" "h" 3 [aHref "b"] rfl

section ExtractLemmas

variable (w : Web)

lemma setAdd_mem (l : List String) (x u : String) :
    u ∈ setAdd l x ↔ u ∈ l ∨ u = x := by
  by_cases h : x ∈ l
  · simp only [setAdd, if_pos h]
    constructor
    · exact Or.inl
    · rintro (hu | rfl)
      · exact hu
      · exact h
  · simp [setAdd, if_neg h]

lemma setAdd_nodup (l : List String) (x : String) (h : l.Nodup) :
    (setAdd l x).Nodup := by
  by_cases hx : x ∈ l
  · simpa [setAdd, hx] using h
  · simp [setAdd, hx, List.nodup_append, h]

lemma addLinks_cons (base_url attr : String) (e : Element) (es : List Element)
    (links : List String) :
    addLinks w base_url attr (e :: es) links =
      addLinks w base_url attr es
        (match e.get attr with
         | some link => if link ≠ "" then setAdd links (w.urljoin base_url link) else links
         | none => links) := rfl

lemma addLinks_mem (base_url attr : String) :
    ∀ (es : List Element) (links : List String) (u : String),
      u ∈ addLinks w base_url attr es links ↔
        u ∈ links ∨ ∃ e ∈ es, ∃ link, e.get attr = some link ∧ link ≠ ""
          ∧ u = w.urljoin base_url link := by
  intro es
  induction es with
  | nil => intro links u; simp [addLinks]
  | cons e es ih =>
    intro links u
    rw [addLinks_cons, ih]
    cases hg : e.get attr with
    | none =>
      simp only [List.mem_cons]
      constructor
      · rintro (hu | ⟨e', he', hrest⟩)
        · exact Or.inl hu
        · exact Or.inr ⟨e', Or.inr he', hrest⟩
      · rintro (hu | ⟨e', (rfl | he'), link, hlink, hne, hu⟩)
        · exact Or.inl hu
        · rw [hg] at hlink; cases hlink
        · exact Or.inr ⟨e', he', link, hlink, hne, hu⟩
    | some link =>
      by_cases hne : link ≠ ""
      · simp only [if_pos hne, setAdd_mem, List.mem_cons]
        constructor
        · rintro ((hu | rfl) | ⟨e', he', hrest⟩)
          · exact Or.inl hu
          · exact Or.inr ⟨e, Or.inl rfl, link, hg, hne, rfl⟩
          · exact Or.inr ⟨e', Or.inr he', hrest⟩
        · rintro (hu | ⟨e', (rfl | he'), link', hlink', hne', hu⟩)
          · exact Or.inl (Or.inl hu)
          · rw [hg] at hlink'
            cases hlink'
            exact Or.inl (Or.inr hu)
          · exact Or.inr ⟨e', he', link', hlink', hne', hu⟩
      · simp only [if_neg hne, List.mem_cons]
        push_neg at hne
        constructor
        · rintro (hu | ⟨e', he', hrest⟩)
          · exact Or.inl hu
          · exact Or.inr ⟨e', Or.inr he', hrest⟩
        · rintro (hu | ⟨e', (rfl | he'), link', hlink', hne', hu⟩)
          · exact Or.inl hu
          · rw [hg] at hlink'
            cases hlink'
            exact absurd hne hne'
          · exact Or.inr ⟨e', he', link', hlink', hne', hu⟩

lemma addLinks_nodup (base_url attr : String) :
    ∀ (es : List Element) (links : List String), links.Nodup →
      (addLinks w base_url attr es links).Nodup := by
  intro es
  induction es with
  | nil => intro links h; simpa [addLinks] using h
  | cons e es ih =>
    intro links h
    rw [addLinks_cons]
    refine ih _ ?_
    cases e.get attr with
    | none => exact h
    | some link =>
      by_cases hne : link ≠ ""
      · simpa [if_pos hne] using setAdd_nodup links (w.urljoin base_url link) h
      · simpa [if_neg hne] using h

lemma find_all_mem (soup : Soup) (t : String) (e : Element) :
    e ∈ Soup.find_all soup t ↔ e ∈ soup ∧ e.tag = t := by
  simp [Soup.find_all, List.mem_filter]

lemma foldTags_mem (soup : Soup) (base_url : String) :
    ∀ (tas : List (String × String)) (links : List String) (u : String),
      u ∈ tas.foldl (fun links ta => addLinks w base_url ta.2 (Soup.find_all soup ta.1) links)
          links ↔
        u ∈ links ∨ ∃ ta ∈ tas, ∃ e ∈ soup, e.tag = ta.1 ∧
          ∃ link, e.get ta.2 = some link ∧ link ≠ "" ∧ u = w.urljoin base_url link := by
  intro tas
  induction tas with
  | nil => intro links u; simp
  | cons ta tas ih =>
    intro links u
    rw [List.foldl_cons, ih, addLinks_mem]
    constructor
    · rintro (hu | ⟨ta', hta', hrest⟩)
      · rcases hu with hu | ⟨e, he, hrest⟩
        · exact Or.inl hu
        · exact Or.inr ⟨ta, List.mem_cons_self _ _,
            e, (find_all_mem soup ta.1 e).1 he |>.1, (find_all_mem soup ta.1 e).1 he |>.2, hrest⟩
      · exact Or.inr ⟨ta', List.mem_cons.2 (Or.inr hta'), hrest⟩
    · rintro (hu | ⟨ta', hta', e, he, htag, hrest⟩)
      · exact Or.inl (Or.inl hu)
      · rcases List.mem_cons.1 hta' with rfl | hta'
        · exact Or.inl (Or.inr ⟨e, (find_all_mem soup ta'.1 e).2 ⟨he, htag⟩, hrest⟩)
        · exact Or.inr ⟨ta', hta', e, he, htag, hrest⟩

lemma foldTags_nodup (soup : Soup) (base_url : String) :
    ∀ (tas : List (String × String)) (links : List String), links.Nodup →
      (tas.foldl (fun links ta => addLinks w base_url ta.2 (Soup.find_all soup ta.1) links)
        links).Nodup := by
  intro tas
  induction tas with
  | nil => intro links h; simpa using h
  | cons ta tas ih =>
    intro links h
    rw [List.foldl_cons]
    exact ih _ (addLinks_nodup w base_url ta.2 _ links h)

end ExtractLemmas

/-- C8: `extract_links` returns a set — a duplicate-free collection —
whose members are exactly the results of joining each non-empty
hyperlink target (`a`/`href`), image source (`img`/`src`), script
source (`script`/`src`) and link-element target (`link`/`href`) found
in the page against `base_url` with `urljoin`; absent and empty
references are skipped. -/
theorem extract_links_spec :
    ∀ (w : Web) (soup : Soup) (base_url : String),
      (extract_links w soup base_url).Nodup
      ∧ (∀ u, u ∈ extract_links w soup base_url ↔
          ∃ ta ∈ tags_attrs, ∃ e ∈ soup, e.tag = ta.1 ∧
            ∃ link, e.get ta.2 = some link ∧ link ≠ "" ∧ u = w.urljoin base_url link) := by
  intro w soup base_url
  constructor
  · exact foldTags_nodup w soup base_url tags_attrs [] (by simp)
  · intro u
    rw [extract_links, foldTags_mem]
    simp


section AggregationLemmas

lemma dictInsert_any_iff (m : List (String × (Option Nat × Bool × String))) (k : String) :
    m.any (fun p => p.1 == k) = true ↔ k ∈ m.map (fun p => p.1) := by
  simp [List.any_eq_true]

lemma dictInsert_cons (p : String × (Option Nat × Bool × String))
    (m : List (String × (Option Nat × Bool × String)))
    (k : String) (v : Option Nat × Bool × String) :
    dictInsert (p :: m) k v =
      if p.1 == k then (k, v) :: m.map (fun q => if q.1 == k then (k, v) else q)
      else p :: dictInsert m k v := by
  cases hp : p.1 == k with
  | true =>
    have hany : (p :: m).any (fun q => q.1 == k) = true := by simp [List.any_cons, hp]
    rw [dictInsert, if_pos hany, if_pos (by simp [hp]), List.map_cons, if_pos hp]
  | false =>
    rw [if_neg (by simp [hp])]
    cases hany : m.any (fun q => q.1 == k) with
    | true =>
      have hany' : (p :: m).any (fun q => q.1 == k) = true := by
        simp [List.any_cons, hany]
      rw [dictInsert, if_pos hany', dictInsert, if_pos hany,
        List.map_cons, if_neg (by simp [hp])]
    | false =>
      have hany' : (p :: m).any (fun q => q.1 == k) = false := by
        simp only [List.any_cons, hp, hany, Bool.or_self]
      rw [dictInsert, if_neg (by simp [hany']), dictInsert, if_neg (by simp [hany]),
        List.cons_append]

lemma find_ne_map_replace (k k' : String) (v : Option Nat × Bool × String) (hne : k' ≠ k) :
    ∀ (m : List (String × (Option Nat × Bool × String))),
      (m.map (fun q => if q.1 == k then (k, v) else q)).find? (fun q => q.1 == k') =
        m.find? (fun q => q.1 == k') := by
  intro m
  induction m with
  | nil => rfl
  | cons q m ih =>
    rw [List.map_cons]
    cases hq : q.1 == k with
    | true =>
      rw [if_pos rfl]
      rw [List.find?_cons_of_neg _ (by simp; exact fun h => hne h.symm)]
      rw [List.find?_cons_of_neg _ (by simp [eq_of_beq hq]; exact fun h => hne h.symm)]
      exact ih
    | false =>
      rw [if_neg Bool.false_ne_true]
      cases hq' : q.1 == k' with
      | true =>
        rw [List.find?_cons_of_pos _ (by simp [hq']), List.find?_cons_of_pos _ (by simp [hq'])]
      | false =>
        rw [List.find?_cons_of_neg _ (by simp [hq']), List.find?_cons_of_neg _ (by simp [hq'])]
        exact ih

lemma dictInsert_find_self (k : String) (v : Option Nat × Bool × String) :
    ∀ (m : List (String × (Option Nat × Bool × String))),
      (dictInsert m k v).find? (fun p => p.1 == k) = some (k, v) := by
  intro m
  induction m with
  | nil => simp [dictInsert, List.find?]
  | cons p m ih =>
    rw [dictInsert_cons]
    cases hp : p.1 == k with
    | true =>
      rw [if_pos (by simp [hp])]
      rw [List.find?_cons_of_pos _ (by simp)]
    | false =>
      rw [if_neg (by simp [hp])]
      rw [List.find?_cons_of_neg _ (by simp [hp])]
      exact ih

lemma dictInsert_find_ne (k k' : String) (v : Option Nat × Bool × String) (hne : k' ≠ k) :
    ∀ (m : List (String × (Option Nat × Bool × String))),
      (dictInsert m k v).find? (fun p => p.1 == k') = m.find? (fun p => p.1 == k') := by
  intro m
  induction m with
  | nil =>
    rw [dictInsert]
    simp only [List.any_nil, Bool.false_eq_true, if_false, List.nil_append]
    rw [List.find?_cons_of_neg _ (by simp; exact fun h => hne h.symm)]
  | cons p m ih =>
    rw [dictInsert_cons]
    cases hp : p.1 == k with
    | true =>
      rw [if_pos (by simp [hp])]
      rw [List.find?_cons_of_neg _ (by simp; exact fun h => hne h.symm)]
      rw [List.find?_cons_of_neg _ (by simp [eq_of_beq hp]; exact fun h => hne h.symm)]
      exact find_ne_map_replace k k' v hne m
    | false =>
      rw [if_neg (by simp [hp])]
      cases hp' : p.1 == k' with
      | true =>
        rw [List.find?_cons_of_pos _ (by simp [hp']), List.find?_cons_of_pos _ (by simp [hp'])]
      | false =>
        rw [List.find?_cons_of_neg _ (by simp [hp']), List.find?_cons_of_neg _ (by simp [hp'])]
        exact ih

lemma map_fst_replace (k : String) (v : Option Nat × Bool × String) :
    ∀ (m : List (String × (Option Nat × Bool × String))),
      (m.map (fun p => if p.1 == k then (k, v) else p)).map (fun p => p.1) =
        m.map (fun p => p.1) := by
  intro m
  induction m with
  | nil => rfl
  | cons p m ih =>
    simp only [List.map_cons]
    rw [ih]
    by_cases hp : (p.1 == k) = true
    · rw [if_pos hp]
      show k :: _ = _
      rw [eq_of_beq hp]
    · rw [if_neg hp]

lemma dictInsert_keys (m : List (String × (Option Nat × Bool × String)))
    (k : String) (v : Option Nat × Bool × String) :
    (dictInsert m k v).map (fun p => p.1) =
      if k ∈ m.map (fun p => p.1) then m.map (fun p => p.1)
      else m.map (fun p => p.1) ++ [k] := by
  by_cases h : k ∈ m.map (fun p => p.1)
  · rw [if_pos h, dictInsert, if_pos ((dictInsert_any_iff m k).2 h), map_fst_replace]
  · rw [if_neg h, dictInsert,
      if_neg (fun hc => h ((dictInsert_any_iff m k).1 hc)), List.map_append]
    rfl

lemma unique_results_append (rs : List LinkRecord) (r : LinkRecord) :
    unique_results (rs ++ [r]) = dictInsert (unique_results rs) r.1 r.2 := by
  rw [unique_results, List.foldl_append]
  rfl

end AggregationLemmas

lemma firstKeys_append (rs : List LinkRecord) (r : LinkRecord) :
    firstKeys (rs ++ [r]) =
      if r.1 ∈ firstKeys rs then firstKeys rs else firstKeys rs ++ [r.1] := by
  rw [firstKeys, List.foldl_append]
  rfl

lemma unique_results_keys : ∀ (rs : List LinkRecord),
    (unique_results rs).map (fun p => p.1) = firstKeys rs := by
  intro rs
  induction rs using List.reverseRecOn with
  | nil => rfl
  | append_singleton rs r ih =>
    rw [unique_results_append, dictInsert_keys, ih, firstKeys_append]

lemma foldl_firstKeys_nodup : ∀ (rs : List LinkRecord) (acc : List String), acc.Nodup →
    (rs.foldl (fun acc r => if r.1 ∈ acc then acc else acc ++ [r.1]) acc).Nodup := by
  intro rs
  induction rs with
  | nil => intro acc h; exact h
  | cons r rs ih =>
    intro acc h
    rw [List.foldl_cons]
    refine ih _ ?_
    by_cases hr : r.1 ∈ acc
    · rw [if_pos hr]; exact h
    · rw [if_neg hr]; simp [List.nodup_append, h, hr]

lemma firstKeys_nodup (rs : List LinkRecord) : (firstKeys rs).Nodup :=
  foldl_firstKeys_nodup rs [] (by simp)

lemma unique_results_last : ∀ (rs : List LinkRecord) (k : String),
    ((unique_results rs).find? (fun p => p.1 == k)).map (fun p => p.2) =
      lastOutcome rs k := by
  intro rs
  induction rs using List.reverseRecOn with
  | nil => intro k; rfl
  | append_singleton rs r ih =>
    intro k
    rw [unique_results_append]
    cases hk : r.1 == k with
    | true =>
      have hrk : r.1 = k := eq_of_beq hk
      subst hrk
      rw [dictInsert_find_self]
      simp [lastOutcome, List.filter_append, List.filter_singleton, List.getLast?_concat]
    | false =>
      have hne : k ≠ r.1 := by
        intro h
        rw [h] at hk
        simp at hk
      rw [dictInsert_find_ne r.1 k r.2 hne, ih]
      rw [lastOutcome, lastOutcome, List.filter_append]
      simp [List.filter_singleton, hk]

/-- C5: the post-crawl aggregation has at most one entry per URL (its
key list is duplicate-free), keys appear in order of first occurrence
in the raw list, each key carries the outcome of its last occurrence,
and `working + broken = total = |deduplicated results|`, where `broken`
counts deduplicated entries whose reachable flag is false. -/
theorem result_aggregation_spec :
    ∀ (results : List LinkRecord),
      ((dedup_results results).map (fun r => r.1)).Nodup
      ∧ (dedup_results results).map (fun r => r.1) = firstKeys results
      ∧ (∀ k, ((unique_results results).find? (fun p => p.1 == k)).map (fun p => p.2) =
          lastOutcome results k)
      ∧ workingCount results + brokenCount results = totalCount results
      ∧ totalCount results = (dedup_results results).length := by
  intro rs
  have hkeys : (dedup_results rs).map (fun r => r.1) =
      (unique_results rs).map (fun p => p.1) := by
    rw [dedup_results, List.map_map]
    rfl
  refine ⟨?_, ?_, unique_results_last rs, ?_, rfl⟩
  · rw [hkeys, unique_results_keys]
    exact firstKeys_nodup rs
  · rw [hkeys, unique_results_keys]
  · have hle : brokenCount rs ≤ totalCount rs := List.length_filter_le _ _
    rw [workingCount]
    omega
